import Mathlib

/-!
Verification of the mod dependency resolution and event-modifier merge
pipeline of the launcher (`scr/mainWindow.py`): manifest `dependencies`
parsing (from `load_mods`), the conflict-file parser
(`_parse_event_modifiers_content`), the load-order resolver
(`_resolve_event_modifiers_load_order`) and the merge engine
(`_merge_event_modifiers_from_paths`).

Modelling conventions:
* Python strings are `String`; the string primitives the code uses
  (`strip`, `split`, `splitlines`, `startswith`, `count`, `in`) are defined
  below over `String.data` so that every definition evaluates by kernel
  reduction.
* Python dictionaries whose iteration order is never observed
  (`in_degree`, `rev`, `merged_values`) are modelled as update functions.
* File reads are abstracted as `String → Option String` (`none` models the
  `except` branch of a failed read).
* `while` loops are modelled by recursion; where the recursion is not
  structural, an explicit fuel argument bounds the number of iterations and
  is proved large enough that it never runs out on the inputs the code can
  produce.
-/

/-- Python `s.strip(chars)`: remove the characters of `cs` from both ends
of `s`. -/
def stripSet (cs : List Char) (s : String) : String :=
  ⟨((s.data.dropWhile (fun c => cs.contains c)).reverse.dropWhile
      (fun c => cs.contains c)).reverse⟩

/-- The characters Python `str.strip()` removes by default. -/
def pySpaceChars : List Char := [' ', '\t', '\n', '\r', '\x0b', '\x0c']

/-- Python `s.strip()` (no argument): remove whitespace from both ends. -/
def pyStrip (s : String) : String := stripSet pySpaceChars s

/-- Python `s.split(c, 1)` for a one-character separator that occurs in `s`:
the part before the first `c`, and the part after it. -/
def splitOnce (c : Char) (s : String) : String × String :=
  (⟨s.data.takeWhile (fun a => a != c)⟩,
   ⟨(s.data.dropWhile (fun a => a != c)).drop 1⟩)

/-- Python `c in s` for a single character. -/
def hasChar (s : String) (c : Char) : Bool := s.data.contains c

/-- Python `s.startswith(p)`. -/
def startsWithB (s p : String) : Bool := p.data.isPrefixOf s.data

/-- Split a character list at every occurrence of `c` (Python `s.split(c)`
semantics: `n` separators produce `n + 1` pieces, possibly empty). -/
def splitChar (c : Char) : List Char → List (List Char)
  | [] => [[]]
  | a :: rest =>
      if a == c then [] :: splitChar c rest
      else
        match splitChar c rest with
        | [] => [[a]]
        | g :: gs => (a :: g) :: gs

/-- Python `s.split(c)` as an operation on strings. -/
def splitOnChar (c : Char) (s : String) : List String :=
  (splitChar c s.data).map (fun l => ⟨l⟩)

/-- Running brace balance contribution of one line:
`line.count("\x7b") - line.count("\x7d")`. -/
def braceDelta (s : String) : Int :=
  (s.data.count '\x7b' : Int) - (s.data.count '\x7d' : Int)

/-- Python `content.splitlines()` for LF-separated text (the launcher opens
files in text mode, which normalises newlines to `\n`). -/
def splitlinesLF (s : String) : List String :=
  if s.data.isEmpty then []
  else if s.data.getLast? == some '\n' then (splitOnChar '\n' s).dropLast
  else splitOnChar '\n' s

/-- The inner `while depth > 0 and i + 1 < len(lines)` loop of
`_parse_event_modifiers_content`: keep appending raw lines (joined by
newline) to `value`, updating the brace balance, until the balance is no
longer positive or the input is exhausted.  Returns the accumulated value
and the lines that remain.  (When the input is exhausted the loop exits
with the lines consumed whatever the balance is, so the two exits coincide
on `[]`.) -/
def consumeBraces : Int → String → List String → String × List String
  | _, value, [] => (value, [])
  | depth, value, next :: rest2 =>
      if 0 < depth then
        consumeBraces (depth + braceDelta next) (value ++ "\n" ++ next) rest2
      else (value, next :: rest2)

/-- The line-scanning loop of `_parse_event_modifiers_content`, with a fuel
argument standing for an upper bound on the number of remaining iterations
(each iteration consumes at least one line, so `lines.length` fuel always
suffices; see `parseLinesAux_fuel_irrelevant`).  A line is skipped when its
stripped form is empty, starts with `#`, or has no `=`; otherwise it is
split at the first `=` into a stripped key and value, and a value with an
unbalanced opening brace pulls in further raw lines via `consumeBraces`. -/
def parseLinesAux : Nat → List String → List (String × String)
  | 0, _ => []
  | _ + 1, [] => []
  | fuel + 1, line :: rest =>
      let s := pyStrip line
      if s.data.isEmpty || startsWithB s "#" then parseLinesAux fuel rest
      else if !(hasChar s '=') then parseLinesAux fuel rest
      else
        let key := pyStrip (splitOnce '=' s).1
        let value := pyStrip (splitOnce '=' s).2
        if hasChar value '\x7b' then
          let cb := consumeBraces (braceDelta value) value rest
          (key, pyStrip cb.1) :: parseLinesAux fuel cb.2
        else
          (key, value) :: parseLinesAux fuel rest

/-- `_parse_event_modifiers_content`: parse the conflict-file text into the
ordered list of `(key, value)` pairs. -/
def parse_event_modifiers_content (content : String) : List (String × String) :=
  parseLinesAux (splitlinesLF content).length (splitlinesLF content)

/-- The line-scanning loop applied to an explicit line list, with the fuel
it always gets. -/
def parseLines (lines : List String) : List (String × String) :=
  parseLinesAux lines.length lines

/-- `_parse_mod_kv` (from `load_mods`): split a manifest line into a key and
a value, stripping whitespace and one pair of surrounding double quotes;
`None` for blank lines, `#`/`//` comments and lines without `=`. -/
def parse_mod_kv (line : String) : Option (String × String) :=
  let s := pyStrip line
  if s.data.isEmpty || startsWithB s "#" || startsWithB s "//" then none
  else if !(hasChar s '=') then none
  else
    let key := pyStrip (splitOnce '=' s).1
    let value := pyStrip (splitOnce '=' s).2
    let value :=
      if startsWithB value "\"" && (value.data.getLast? == some '"')
          && decide (2 ≤ value.data.length) then
        ⟨(value.data.drop 1).dropLast⟩
      else value
    some (key, value)

/-- The `dependencies` branch of `load_mods`: strip `\x7b`/`\x7d` from the
stripped value, split on commas, keep the pieces whose stripped form is
nonempty, and strip whitespace and surrounding quote characters from each
kept piece. -/
def parse_dependencies_value (value : String) : List String :=
  let depsStr := stripSet ['\x7b', '\x7d'] (pyStrip value)
  ((splitOnChar ',' depsStr).filter (fun dep => !(pyStrip dep).data.isEmpty)).map
    (fun dep => stripSet ['"'] (pyStrip dep))

/-- One step of the merge loop of `_merge_event_modifiers_from_paths` over
the parsed entries of a single mod: write each value into `merged_values`
(modelled as an update function, last write wins) and append each key not
yet seen to `merged_order`. -/
def mergeEntries : List (String × String) → (String → Option String) → List String →
    (String → Option String) × List String
  | [], mv, mo => (mv, mo)
  | (k, v) :: rest, mv, mo =>
      mergeEntries rest (fun x => if x = k then some v else mv x)
        (if mo.contains k then mo else mo ++ [k])

/-- The outer loop of `_merge_event_modifiers_from_paths`: process the mods
in the given order, skipping (`continue`) any mod whose conflict-file read
fails, and merging the parsed entries of each readable mod into the
accumulated state.  `readFn` abstracts the file read keyed by mod name. -/
def mergeMods (readFn : String → Option String) :
    List String → (String → Option String) → List String →
    (String → Option String) × List String
  | [], mv, mo => (mv, mo)
  | n :: rest, mv, mo =>
      match readFn n with
      | none => mergeMods readFn rest mv mo
      | some content =>
          let st := mergeEntries (parse_event_modifiers_content content) mv mo
          mergeMods readFn rest st.1 st.2

/-- `_merge_event_modifiers_from_paths`: merge the conflict-files of the
mods in load order and render the result as `key=value` lines in
first-appearance key order. -/
def merge_event_modifiers_from_paths (readFn : String → Option String)
    (orderedNames : List String) : String :=
  let st := mergeMods readFn orderedNames (fun _ => none) []
  String.join (st.2.map (fun key => key ++ "=" ++ ((st.1 key).getD "") ++ "\n"))

/-- Parsed entries contributed by one mod: those of its conflict-file when
readable, none otherwise. -/
def modEntries (readFn : String → Option String) (name : String) :
    List (String × String) :=
  match readFn name with
  | none => []
  | some content => parse_event_modifiers_content content

/-- Concatenation of the per-mod entry sequences in the given order. -/
def allEntries (readFn : String → Option String) : List String → List (String × String)
  | [] => []
  | n :: rest => modEntries readFn n ++ allEntries readFn rest

/-- Value of the last entry bearing key `k` in an entry sequence, if any. -/
def lastValue? (es : List (String × String)) (k : String) : Option String :=
  ((es.filter (fun p => p.1 == k)).getLast?).map Prod.snd

/-- The induced dependency function of `_resolve_event_modifiers_load_order`:
`deps_map[mod] = [d for d in self.mod_dependencies.get(mod, []) if d in mod_names]`.
`getDeps` models `self.mod_dependencies.get(·, [])`. -/
def candidateDeps (getDeps : String → List String) (modNames : List String) :
    String → List String :=
  fun mod => (getDeps mod).filter (fun d => modNames.contains d)

/-- The `in_degree` dictionary after its two initialisation loops:
start every name at `0`, then add `1` to `in_degree[mod]` for each entry of
`deps_map[mod]`, iterating over `mod_names`. -/
def initDeg (depsMap : String → List String) (modNames : List String) : String → Int :=
  modNames.foldl
    (fun deg mod =>
      (depsMap mod).foldl
        (fun deg2 _ => fun x => if x = mod then deg2 x + 1 else deg2 x) deg)
    (fun _ => 0)

/-- The `rev` dictionary (`"who depends on me"`): start every name at `[]`,
then append `mod` to `rev[dep]` for each `dep` in `deps_map[mod]`, iterating
over `mod_names`. -/
def buildRev (depsMap : String → List String) (modNames : List String) :
    String → List String :=
  modNames.foldl
    (fun rev mod =>
      (depsMap mod).foldl
        (fun rev2 dep => fun x => if x = dep then rev2 x ++ [mod] else rev2 x) rev)
    (fun _ => [])

/-- The inner `for other in rev[m]` loop of the Kahn sort: decrement
`in_degree[other]` and append `other` to the queue when the decremented
value is exactly `0`. -/
def processRev : List String → (String → Int) → List String →
    (String → Int) × List String
  | [], deg, queue => (deg, queue)
  | other :: rest, deg, queue =>
      let d := deg other - 1
      let deg2 := fun x => if x = other then d else deg x
      processRev rest deg2 (if d = 0 then queue ++ [other] else queue)

/-- The `while queue` loop of the Kahn sort: pop the front of the queue,
append it to `order`, and process its reverse edges.  The fuel argument
bounds the number of iterations; `kahnOrder` passes
`2 * mod_names.length + 1`, which is proved sufficient for duplicate-free
candidate lists (`kahnLoop_spec`). -/
def kahnLoop (rev : String → List String) :
    Nat → List String → (String → Int) → List String → List String
  | 0, _, _, order => order
  | _ + 1, [], _, order => order
  | fuel + 1, m :: qrest, deg, order =>
      let st := processRev (rev m) deg qrest
      kahnLoop rev fuel st.2 st.1 (order ++ [m])

/-- Python `sorted(mod_names)`: ascending lexicographic (code-point) order,
i.e. the lexicographic order on the character lists. -/
def sortedLex (l : List String) : List String :=
  List.insertionSort (fun a b => a.data ≤ b.data) l

instance : IsTotal String (fun a b : String => a.data ≤ b.data) :=
  ⟨fun a b => le_total a.data b.data⟩

instance : IsTrans String (fun a b : String => a.data ≤ b.data) :=
  ⟨fun _ _ _ hab hbc => le_trans hab hbc⟩

/-- The Kahn topological sort part of `_resolve_event_modifiers_load_order`:
build the induced dependency map, the in-degree table, the initial queue of
in-degree-zero names in candidate order, and the reverse-edge table, then
run the queue loop. -/
def kahnOrder (getDeps : String → List String) (modNames : List String) :
    List String :=
  let depsMap := candidateDeps getDeps modNames
  let deg0 := initDeg depsMap modNames
  let queue0 := modNames.filter (fun m => deg0 m == 0)
  let rev := buildRev depsMap modNames
  kahnLoop rev (2 * modNames.length + 1) queue0 deg0 []

/-- `_resolve_event_modifiers_load_order`: empty input gives an empty order;
otherwise run the Kahn sort and fall back to `sorted(mod_names)` when the
produced order misses some name (cycle or unreachable node). -/
def resolve_event_modifiers_load_order (getDeps : String → List String)
    (modNames : List String) : List String :=
  if modNames = [] then []
  else
    let order := kahnOrder getDeps modNames
    if order.length ≠ modNames.length then sortedLex modNames else order

/-- The queue elements appended by one run of `processRev`, in order. -/
def pushedList : List String → (String → Int) → List String
  | [], _ => []
  | other :: rest, deg =>
      let d := deg other - 1
      let deg2 := fun x => if x = other then d else deg x
      if d = 0 then other :: pushedList rest deg2 else pushedList rest deg2

/-- Number of names of `names` whose current in-degree is positive; the
termination measure of the Kahn loop is `queue.length + degCount names deg`. -/
def degCount (names : List String) (deg : String → Int) : Nat :=
  names.countP (fun x => decide (0 < deg x))

/-- Acyclicity of the dependency graph induced on `names` by `fdeps`:
every nonempty subset of the candidates contains a member none of whose
dependencies lies in the subset.  (For finite graphs this is equivalent to
the absence of directed cycles.) -/
def AcyclicOn (fdeps : String → List String) (names : List String) : Prop :=
  ∀ S : List String, S ⊆ names → S ≠ [] →
    ∃ m, m ∈ S ∧ ∀ d, d ∈ fdeps m → d ∉ S

/-- The order `l` (after prefix `pre`) respects `fdeps`: every element's
dependencies occur among its predecessors. -/
def topoOk (fdeps : String → List String) : List String → List String → Prop
  | _, [] => True
  | pre, m :: rest => (∀ d, d ∈ fdeps m → d ∈ pre) ∧ topoOk fdeps (pre ++ [m]) rest

/-- Modelled from the claim's words (tie-break reference): the first name of
the candidate list, among those not yet placed, all of whose induced
dependencies are already placed. -/
def claimTieBreakPick (fdeps : String → List String) (placed : List String) :
    List String → Option String
  | [] => none
  | x :: rest =>
      if (fdeps x).all (fun d => placed.contains d) then some x
      else claimTieBreakPick fdeps placed rest

/-- Modelled from the claim's words: repeatedly place the earliest (in
candidate-set appearance order) name whose induced dependencies are all
already placed — "process simultaneously available nodes in the order in
which they originally appear in the candidate set". -/
def claimTieBreakLoop (fdeps : String → List String) :
    Nat → List String → List String → List String
  | 0, _, placed => placed
  | fuel + 1, remaining, placed =>
      match claimTieBreakPick fdeps placed remaining with
      | none => placed
      | some x => claimTieBreakLoop fdeps fuel (remaining.erase x) (placed ++ [x])

/-- Modelled from the claim's words: the unique topological order of the
candidates determined by candidate-set appearance order as tie-break. -/
def claimTieBreakOrder (getDeps : String → List String) (names : List String) :
    List String :=
  claimTieBreakLoop (candidateDeps getDeps names) names.length names []

/-- The brace balance stays positive at every step while scanning `rest`
starting from balance `d` (the premise of the truncated-input claim). -/
def runningPosB : Int → List String → Bool
  | d, [] => decide (0 < d)
  | d, l :: ls => decide (0 < d) && runningPosB (d + braceDelta l) ls

/-- Dependency map of the acyclic two-mod witness: `"M"` depends on `"D"`. -/
def wDepsMD : String → List String := fun m => if m = "M" then ["D"] else []

/-- Dependency map of the cyclic two-mod witness: `"X"` and `"Y"` depend on
each other. -/
def wDepsXY : String → List String :=
  fun m => if m = "X" then ["Y"] else if m = "Y" then ["X"] else []

/-- Dependency map of the tie-break counterexample: `"Y"` depends on `"X"`;
`"X"` and `"Z"` have no dependencies. -/
def cexDepsYX : String → List String := fun m => if m = "Y" then ["X"] else []

/-- `consumeBraces` never returns more lines than it was given. -/
theorem consumeBraces_length_le (depth : Int) (value : String)
    (rest : List String) : (consumeBraces depth value rest).2.length ≤ rest.length := by
  induction rest generalizing depth value with
  | nil => simp [consumeBraces]
  | cons next rest2 ih =>
      rw [consumeBraces]
      split
      · exact Nat.le_succ_of_le (ih _ _)
      · simp

/-- The fuel argument of `parseLinesAux` is irrelevant as long as it is at
least the number of lines. -/
theorem parseLinesAux_fuel_irrelevant (n m : Nat) (lines : List String)
    (hn : lines.length ≤ n) (hm : lines.length ≤ m) :
    parseLinesAux n lines = parseLinesAux m lines := by
  induction n generalizing m lines with
  | zero =>
      have : lines = [] := List.length_eq_zero.mp (Nat.le_zero.mp hn)
      subst this
      cases m <;> rfl
  | succ n ih =>
      cases lines with
      | nil => cases m <;> rfl
      | cons line rest =>
          cases m with
          | zero => exact absurd hm (by simp)
          | succ m =>
              simp only [parseLinesAux]
              have hr : rest.length ≤ n := Nat.le_of_succ_le_succ hn
              have hr' : rest.length ≤ m := Nat.le_of_succ_le_succ hm
              split
              · exact ih m rest hr hr'
              · split
                · exact ih m rest hr hr'
                · split
                  · have hc := consumeBraces_length_le
                      (braceDelta (pyStrip (splitOnce '=' (pyStrip line)).2))
                      (pyStrip (splitOnce '=' (pyStrip line)).2) rest
                    exact congrArg _ (ih m _ (le_trans hc hr) (le_trans hc hr'))
                  · exact congrArg _ (ih m rest hr hr')

theorem option_map_or {α β : Type} (f : α → β) (o p : Option α) :
    (o.or p).map f = (o.map f).or (p.map f) := by
  cases o <;> rfl

theorem getLast?_cons_or {α : Type} : ∀ (l : List α) (a : α),
    (a :: l).getLast? = l.getLast?.or (some a)
  | [], _ => rfl
  | b :: l', a => by
      rw [List.getLast?_cons_cons, getLast?_cons_or l' b]
      cases l'.getLast? <;> rfl

theorem getLast?_append_or {α : Type} (l1 l2 : List α) :
    (l1 ++ l2).getLast? = l2.getLast?.or l1.getLast? := by
  induction l1 with
  | nil => rw [List.nil_append]; cases l2.getLast? <;> rfl
  | cons a l1' ih =>
      rw [List.cons_append, getLast?_cons_or, ih, getLast?_cons_or]
      cases l2.getLast? <;> cases l1'.getLast? <;> rfl

theorem lastValue?_cons (k' v' k : String) (es : List (String × String)) :
    lastValue? ((k', v') :: es) k =
      if k' == k then (lastValue? es k).or (some v') else lastValue? es k := by
  simp only [lastValue?, List.filter_cons]
  split
  · rw [getLast?_cons_or, option_map_or]; rfl
  · rfl

theorem lastValue?_append (es1 es2 : List (String × String)) (k : String) :
    lastValue? (es1 ++ es2) k = (lastValue? es2 k).or (lastValue? es1 k) := by
  simp only [lastValue?, List.filter_append, getLast?_append_or, option_map_or]

/-- The merged-values function after merging one entry list: the value of
the last entry with the key, falling back to the previous state. -/
theorem mergeEntries_fst (es : List (String × String))
    (mv : String → Option String) (mo : List String) (k : String) :
    (mergeEntries es mv mo).1 k = (lastValue? es k).or (mv k) := by
  induction es generalizing mv mo with
  | nil => rfl
  | cons e rest ih =>
      obtain ⟨k', v'⟩ := e
      rw [mergeEntries, ih]
      show (lastValue? rest k).or (if k = k' then some v' else mv k) =
        (lastValue? ((k', v') :: rest) k).or (mv k)
      rw [lastValue?_cons]
      by_cases h : k = k'
      · subst h
        rw [if_pos rfl, if_pos (beq_self_eq_true k)]
        cases lastValue? rest k <;> rfl
      · rw [if_neg h, if_neg (fun hc => h ((beq_iff_eq.mp hc).symm))]

/-- The merged-values function after the whole merge loop: the value of the
last entry with the key among all entries contributed so far. -/
theorem mergeMods_fst (readFn : String → Option String) (names : List String)
    (mv : String → Option String) (mo : List String) (k : String) :
    (mergeMods readFn names mv mo).1 k =
      (lastValue? (allEntries readFn names) k).or (mv k) := by
  induction names generalizing mv mo with
  | nil => rfl
  | cons n rest ih =>
      rw [mergeMods, allEntries]
      cases h : readFn n with
      | none =>
          have hm : modEntries readFn n = [] := by rw [modEntries, h]
          rw [ih, lastValue?_append, hm]
          cases lastValue? (allEntries readFn rest) k <;> rfl
      | some content =>
          have hm : modEntries readFn n = parse_event_modifiers_content content := by
            rw [modEntries, h]
          rw [ih, mergeEntries_fst, lastValue?_append, hm]
          cases lastValue? (allEntries readFn rest) k <;>
            cases lastValue? (parse_event_modifiers_content content) k <;> rfl

theorem parseLinesAux_nil (n : Nat) : parseLinesAux n [] = [] := by
  cases n <;> rfl

theorem mergeEntries_snd (es : List (String × String))
    (mv : String → Option String) (mo : List String) :
    (mergeEntries es mv mo).2 =
      (es.map Prod.fst).foldl
        (fun acc k => if acc.contains k then acc else acc ++ [k]) mo := by
  induction es generalizing mv mo with
  | nil => rfl
  | cons e rest ih =>
      obtain ⟨k', v'⟩ := e
      rw [mergeEntries, ih, List.map_cons, List.foldl_cons]

theorem mergeMods_snd (readFn : String → Option String) (names : List String)
    (mv : String → Option String) (mo : List String) :
    (mergeMods readFn names mv mo).2 =
      ((allEntries readFn names).map Prod.fst).foldl
        (fun acc k => if acc.contains k then acc else acc ++ [k]) mo := by
  induction names generalizing mv mo with
  | nil => rfl
  | cons n rest ih =>
      rw [mergeMods, allEntries]
      cases h : readFn n with
      | none =>
          have hm : modEntries readFn n = [] := by rw [modEntries, h]
          rw [ih, hm, List.nil_append]
      | some content =>
          have hm : modEntries readFn n = parse_event_modifiers_content content := by
            rw [modEntries, h]
          rw [ih, mergeEntries_snd, hm, List.map_append, List.foldl_append]

theorem firstAppearanceFold_nodup (ks : List String) (mo : List String)
    (h : mo.Nodup) :
    (ks.foldl (fun acc k => if acc.contains k then acc else acc ++ [k]) mo).Nodup := by
  induction ks generalizing mo with
  | nil => exact h
  | cons k rest ih =>
      rw [List.foldl_cons]
      by_cases hc : mo.contains k = true
      · rw [if_pos hc]; exact ih mo h
      · rw [if_neg hc]
        refine ih _ ?_
        have hk : k ∉ mo := fun hm => hc (List.elem_eq_true_of_mem hm)
        simp [List.nodup_append, h, hk]

theorem mergeMods_filter_readable (readFn : String → Option String)
    (names : List String) (mv : String → Option String) (mo : List String) :
    mergeMods readFn names mv mo =
      mergeMods readFn (names.filter (fun n => (readFn n).isSome)) mv mo := by
  induction names generalizing mv mo with
  | nil => rfl
  | cons n rest ih =>
      cases h : readFn n with
      | none =>
          have hf : (n :: rest).filter (fun n => (readFn n).isSome) =
              rest.filter (fun n => (readFn n).isSome) := by
            simp [List.filter_cons, h]
          rw [hf, mergeMods, h]
          exact ih mv mo
      | some content =>
          have hf : (n :: rest).filter (fun n => (readFn n).isSome) =
              n :: rest.filter (fun n => (readFn n).isSome) := by
            simp [List.filter_cons, h]
          rw [hf, mergeMods, h, mergeMods, h]
          exact ih _ _

/-- C2.  Last writer wins across the whole merge: the recorded value of any
key equals the value of the last entry bearing that key in the
concatenation of the per-mod entry sequences taken in the given (resolved)
order — duplicates within one mod included.  The second conjunct checks the
claim's two-mod instance: with `A` before `B`, key `k` ends with `B`'s
value. -/
theorem merge_last_writer_wins (readFn : String → Option String)
    (names : List String) (k : String) :
    (mergeMods readFn names (fun _ => none) []).1 k =
      lastValue? (allEntries readFn names) k ∧
    (mergeMods
        (fun n => if n = "A" then some "k=1" else if n = "B" then some "k=2" else none)
        ["A", "B"] (fun _ => none) []).1 "k" = some "2" := by
  constructor
  · rw [mergeMods_fst]
    cases lastValue? (allEntries readFn names) k <;> rfl
  · decide

/-- C3.  The merged key order is the first-appearance fold of the keys of
the concatenated per-mod entry sequences in resolution order (so a later
override never moves a key), and it contains no duplicate keys. -/
theorem merge_key_order_first_appearance (readFn : String → Option String)
    (names : List String) :
    (mergeMods readFn names (fun _ => none) []).2 =
      ((allEntries readFn names).map Prod.fst).foldl
        (fun acc k => if acc.contains k then acc else acc ++ [k]) [] ∧
    (mergeMods readFn names (fun _ => none) []).2.Nodup := by
  refine ⟨mergeMods_snd readFn names _ [], ?_⟩
  rw [mergeMods_snd readFn names _ []]
  exact firstAppearanceFold_nodup _ [] List.nodup_nil

/-- C8.  A mod whose conflict-file read fails is skipped entirely: the merge
output equals the output for the readable mods alone, in their relative
order, and the merge itself is a total function (no error is raised). -/
theorem merge_unreadable_mod_skipped (readFn : String → Option String)
    (names : List String) :
    merge_event_modifiers_from_paths readFn names =
      merge_event_modifiers_from_paths readFn
        (names.filter (fun n => (readFn n).isSome)) := by
  simp only [merge_event_modifiers_from_paths]
  rw [mergeMods_filter_readable]

/-- C6.  The brace-balanced multi-line example parses exactly as stated,
and a line whose stripped form is blank, starts with `#`, or lacks `=`
is skipped by the parser. -/
theorem parse_brace_multiline (line : String) (rest : List String)
    (h : (pyStrip line).data.isEmpty = true ∨ startsWithB (pyStrip line) "#" = true ∨
      hasChar (pyStrip line) '=' = false) :
    parse_event_modifiers_content "foo=\x7b\na=1\n\x7d\nbar=2" =
      [("foo", "\x7b\na=1\n\x7d"), ("bar", "2")] ∧
    parseLines (line :: rest) = parseLines rest := by
  refine ⟨by decide, ?_⟩
  rw [parseLines, parseLines]
  show parseLinesAux (rest.length + 1) (line :: rest) = parseLinesAux rest.length rest
  simp only [parseLinesAux]
  rcases h with h | h | h
  · rw [if_pos (by rw [h, Bool.true_or])]
  · rw [if_pos (by rw [h, Bool.or_true])]
  · by_cases h1 : ((pyStrip line).data.isEmpty || startsWithB (pyStrip line) "#") = true
    · rw [if_pos h1]
    · rw [if_neg h1, if_pos (by rw [h]; rfl)]

theorem consumeBraces_of_runningPos (d : Int) (v : String) (rest : List String)
    (h : runningPosB d rest = true) :
    consumeBraces d v rest = (rest.foldl (fun acc l => acc ++ "\n" ++ l) v, []) := by
  induction rest generalizing d v with
  | nil => rfl
  | cons next rest2 ih =>
      rw [runningPosB, Bool.and_eq_true] at h
      rw [consumeBraces, if_pos (of_decide_eq_true h.1), ih _ _ h.2, List.foldl_cons]

/-- C7.  If the input ends while the brace balance is still positive, the
parser raises no error: it consumes every remaining line into the value and
yields the single partial entry accumulated so far. -/
theorem parse_truncated_brace_block (line : String) (rest : List String)
    (h1 : ((pyStrip line).data.isEmpty || startsWithB (pyStrip line) "#") = false)
    (h2 : hasChar (pyStrip line) '=' = true)
    (h3 : hasChar (pyStrip (splitOnce '=' (pyStrip line)).2) '\x7b' = true)
    (h4 : runningPosB (braceDelta (pyStrip (splitOnce '=' (pyStrip line)).2)) rest = true) :
    parseLines (line :: rest) =
      [(pyStrip (splitOnce '=' (pyStrip line)).1,
        pyStrip (rest.foldl (fun acc l => acc ++ "\n" ++ l)
          (pyStrip (splitOnce '=' (pyStrip line)).2)))] := by
  rw [parseLines]
  show parseLinesAux (rest.length + 1) (line :: rest) = _
  simp only [parseLinesAux]
  rw [if_neg (by rw [h1]; exact Bool.false_ne_true),
      if_neg (by rw [h2]; exact Bool.false_ne_true), if_pos h3,
      consumeBraces_of_runningPos _ _ _ h4]
  rw [parseLinesAux_nil]

/-- C9 counterexample: the manifest line `dependencies=\x7b""\x7d` passes
`_parse_mod_kv` unchanged (no surrounding quotes to strip), and its value
parses to a dependency list containing the empty-string name: the piece
`""` is nonempty before quote-stripping, so it is kept, and quote-stripping
then empties it. -/
theorem parse_dependencies_empty_name_cex :
    parse_mod_kv "dependencies=\x7b\"\"\x7d" = some ("dependencies", "\x7b\"\"\x7d") ∧
    parse_dependencies_value "\x7b\"\"\x7d" = [""] ∧
    "" ∈ parse_dependencies_value "\x7b\"\"\x7d" := by
  exact ⟨by decide, by decide, by decide⟩

/-- C9 (amended).  The parsed dependency list consists of exactly the
comma-separated pieces of the brace-stripped value that are nonempty before
quote-stripping, each then stripped of whitespace and surrounding quote
characters; a piece may still quote-strip to the empty string. -/
theorem parse_dependencies_value_mem (value d : String) :
    d ∈ parse_dependencies_value value ↔
      ∃ p, p ∈ splitOnChar ',' (stripSet ['\x7b', '\x7d'] (pyStrip value)) ∧
        (pyStrip p).data.isEmpty = false ∧ d = stripSet ['"'] (pyStrip p) := by
  simp only [parse_dependencies_value, List.mem_map, List.mem_filter,
    Bool.not_eq_true']
  constructor
  · rintro ⟨p, ⟨hp, hne⟩, rfl⟩
    exact ⟨p, hp, hne, rfl⟩
  · rintro ⟨p, hp, hne, rfl⟩
    exact ⟨p, ⟨hp, hne⟩, rfl⟩

theorem processRev_fst (revm : List String) (deg : String → Int)
    (q : List String) (x : String) :
    (processRev revm deg q).1 x = deg x - (revm.count x : Int) := by
  induction revm generalizing deg q with
  | nil => simp [processRev]
  | cons other rest ih =>
      simp only [processRev]
      rw [ih]
      by_cases h : x = other
      · subst h
        simp only [if_pos rfl, List.count_cons_self]
        push_cast
        ring
      · simp only [if_neg h, List.count_cons_of_ne h]

theorem processRev_snd (revm : List String) (deg : String → Int) (q : List String) :
    (processRev revm deg q).2 = q ++ pushedList revm deg := by
  induction revm generalizing deg q with
  | nil => simp [processRev, pushedList]
  | cons other rest ih =>
      simp only [processRev, pushedList]
      by_cases h : deg other - 1 = 0
      · rw [if_pos h, if_pos h, ih, List.append_assoc, List.singleton_append]
      · rw [if_neg h, if_neg h, ih]

theorem mem_pushedList (revm : List String) (deg : String → Int) (x : String) :
    x ∈ pushedList revm deg ↔ 1 ≤ deg x ∧ deg x ≤ (revm.count x : Int) := by
  induction revm generalizing deg with
  | nil =>
      simp only [pushedList, List.not_mem_nil, List.count_nil, Nat.cast_zero,
        false_iff]
      omega
  | cons other rest ih =>
      simp only [pushedList]
      by_cases ho : x = other
      · subst ho
        by_cases h : deg x - 1 = 0
        · rw [if_pos h]
          simp only [List.mem_cons, List.count_cons_self]
          constructor
          · intro _
            constructor
            · omega
            · push_cast
              omega
          · intro _
            exact Or.inl trivial
        · rw [if_neg h, ih]
          simp only [if_pos rfl, List.count_cons_self]
          push_cast
          omega
      · by_cases h : deg other - 1 = 0
        · rw [if_pos h]
          simp only [List.mem_cons, ih, if_neg ho, List.count_cons_of_ne ho]
          constructor
          · rintro (rfl | hh)
            · exact absurd rfl ho
            · exact hh
          · intro hh
            exact Or.inr hh
        · rw [if_neg h, ih]
          simp only [if_neg ho, List.count_cons_of_ne ho]

theorem pushedList_nodup (revm : List String) (deg : String → Int) :
    (pushedList revm deg).Nodup := by
  induction revm generalizing deg with
  | nil => simp [pushedList]
  | cons other rest ih =>
      simp only [pushedList]
      by_cases h : deg other - 1 = 0
      · rw [if_pos h]
        refine List.nodup_cons.mpr ⟨?_, ih _⟩
        intro hmem
        have := (mem_pushedList rest _ other).mp hmem
        simp at this
        omega
      · rw [if_neg h]
        exact ih _

theorem pushedList_sublist (revm : List String) (deg : String → Int) :
    (pushedList revm deg).Sublist revm := by
  induction revm generalizing deg with
  | nil => simp [pushedList]
  | cons other rest ih =>
      simp only [pushedList]
      by_cases h : deg other - 1 = 0
      · rw [if_pos h]
        exact List.Sublist.cons₂ _ (ih _)
      · rw [if_neg h]
        exact List.Sublist.cons _ (ih _)

theorem degCount_congr (names : List String) (deg deg2 : String → Int)
    (h : ∀ x ∈ names, deg x = deg2 x) :
    degCount names deg = degCount names deg2 := by
  unfold degCount
  induction names with
  | nil => rfl
  | cons b rest ih =>
      rw [List.countP_cons, List.countP_cons,
        ih (fun x hx => h x (List.mem_cons_of_mem _ hx)),
        h b (List.mem_cons_self _ _)]

theorem degCount_mono (names : List String) (deg deg2 : String → Int)
    (h : ∀ x ∈ names, 0 < deg2 x → 0 < deg x) :
    degCount names deg2 ≤ degCount names deg := by
  unfold degCount
  induction names with
  | nil => exact le_refl _
  | cons b rest ih =>
      rw [List.countP_cons, List.countP_cons]
      have hb := h b (List.mem_cons_self _ _)
      have hr := ih (fun x hx => h x (List.mem_cons_of_mem _ hx))
      by_cases hp : 0 < deg2 b
      · simp only [decide_eq_true (hb hp), decide_eq_true hp]
        omega
      · simp only [decide_eq_false hp, Bool.false_eq_true, if_false]
        omega

theorem degCount_update_drop (names : List String) (hnd : names.Nodup)
    (a : String) (ha : a ∈ names) (deg deg2 : String → Int)
    (hpos : 0 < deg a) (hnpos : ¬ 0 < deg2 a)
    (helse : ∀ x ∈ names, x ≠ a → deg2 x = deg x) :
    degCount names deg2 + 1 = degCount names deg := by
  unfold degCount
  induction names with
  | nil => exact absurd ha (List.not_mem_nil a)
  | cons b rest ih =>
      have hb : b ∉ rest := (List.nodup_cons.mp hnd).1
      have hr : rest.Nodup := (List.nodup_cons.mp hnd).2
      rw [List.countP_cons, List.countP_cons]
      rcases List.mem_cons.mp ha with rfl | har
      · have hcong : rest.countP (fun x => decide (0 < deg2 x)) =
            rest.countP (fun x => decide (0 < deg x)) := by
          apply List.countP_congr
          intro x hx
          rw [helse x (List.mem_cons_of_mem _ hx) (fun hxa => hb (hxa ▸ hx))]
        rw [hcong, decide_eq_true hpos, decide_eq_false hnpos]
        simp
      · have hba : b ≠ a := fun hba => hb (hba ▸ har)
        rw [helse b (List.mem_cons_self _ _) hba]
        have := ih hr har (fun x hx hxa => helse x (List.mem_cons_of_mem _ hx) hxa)
        omega

theorem processRev_measure (names : List String) (hnd : names.Nodup)
    (revm : List String) (hrs : ∀ x ∈ revm, x ∈ names)
    (deg : String → Int) (q : List String) :
    (pushedList revm deg).length + degCount names ((processRev revm deg q).1) ≤
      degCount names deg := by
  induction revm generalizing deg q with
  | nil => simp [pushedList, processRev]
  | cons other rest ih =>
      simp only [pushedList, processRev]
      have hon : other ∈ names := hrs other (List.mem_cons_self _ _)
      have hrs2 : ∀ x ∈ rest, x ∈ names := fun x hx => hrs x (List.mem_cons_of_mem _ hx)
      by_cases h : deg other - 1 = 0
      · rw [if_pos h, if_pos h]
        have hdrop :
            degCount names (fun y => if y = other then deg other - 1 else deg y) + 1 =
              degCount names deg := by
          refine degCount_update_drop names hnd other hon _ _ (by omega) (by simp; omega) ?_
          intro x hx hxo
          simp [hxo]
        have hrec := ih hrs2 (fun y => if y = other then deg other - 1 else deg y)
          (q ++ [other])
        rw [List.length_cons]
        omega
      · rw [if_neg h, if_neg h]
        have hmono :
            degCount names (fun y => if y = other then deg other - 1 else deg y) ≤
              degCount names deg := by
          refine degCount_mono names _ _ ?_
          intro x hx hpos2
          by_cases hxo : x = other
          · subst hxo
            simp only [if_pos rfl] at hpos2
            omega
          · simpa [hxo] using hpos2
        have hrec := ih hrs2 (fun y => if y = other then deg other - 1 else deg y) q
        omega

theorem foldl_bump_apply (ds : List String) (mod : String) (deg : String → Int)
    (x : String) :
    (ds.foldl (fun deg2 _ => fun y => if y = mod then deg2 y + 1 else deg2 y) deg) x =
      if x = mod then deg x + (ds.length : Int) else deg x := by
  induction ds generalizing deg with
  | nil => simp
  | cons d ds ih =>
      rw [List.foldl_cons, ih]
      by_cases h : x = mod
      · subst h
        simp only [if_pos rfl, List.length_cons]
        push_cast
        ring
      · simp [h]

theorem initDeg_apply (depsMap : String → List String) (names : List String)
    (x : String) :
    initDeg depsMap names x = (names.count x : Int) * ((depsMap x).length : Int) := by
  have key : ∀ deg : String → Int,
      (names.foldl
        (fun deg mod =>
          (depsMap mod).foldl
            (fun deg2 _ => fun y => if y = mod then deg2 y + 1 else deg2 y) deg)
        deg) x = deg x + (names.count x : Int) * ((depsMap x).length : Int) := by
    induction names with
    | nil => intro deg; simp
    | cons mod rest ih =>
        intro deg
        rw [List.foldl_cons, ih, foldl_bump_apply]
        by_cases h : x = mod
        · subst h
          simp only [if_pos rfl, List.count_cons_self]
          push_cast
          ring
        · simp only [if_neg h, List.count_cons_of_ne h]
  have := key (fun _ => 0)
  rw [initDeg, this]
  ring

theorem foldl_rev_apply (ds : List String) (mod : String)
    (rev : String → List String) (x : String) :
    (ds.foldl (fun rev2 dep => fun y => if y = dep then rev2 y ++ [mod] else rev2 y) rev) x =
      rev x ++ List.replicate (ds.count x) mod := by
  induction ds generalizing rev with
  | nil => simp
  | cons d ds ih =>
      rw [List.foldl_cons, ih]
      by_cases h : x = d
      · subst h
        simp [List.count_cons_self, List.replicate_succ, List.append_assoc]
      · simp [h, List.count_cons_of_ne h]

theorem buildRev_apply (depsMap : String → List String) (names : List String)
    (d : String) :
    buildRev depsMap names d =
      names.flatMap (fun mod => List.replicate ((depsMap mod).count d) mod) := by
  have key : ∀ rev : String → List String,
      (names.foldl
        (fun rev mod =>
          (depsMap mod).foldl
            (fun rev2 dep => fun y => if y = dep then rev2 y ++ [mod] else rev2 y) rev)
        rev) d = rev d ++ names.flatMap (fun mod => List.replicate ((depsMap mod).count d) mod) := by
    induction names with
    | nil => intro rev; simp
    | cons mod rest ih =>
        intro rev
        rw [List.foldl_cons, ih, foldl_rev_apply, List.flatMap_cons, List.append_assoc]
  have := key (fun _ => [])
  rw [buildRev, this, List.nil_append]

theorem buildRev_mem_names (depsMap : String → List String) (names : List String)
    (d x : String) (hx : x ∈ buildRev depsMap names d) : x ∈ names := by
  rw [buildRev_apply] at hx
  obtain ⟨mod, hmod, hrep⟩ := List.mem_flatMap.mp hx
  rwa [List.eq_of_mem_replicate hrep]

theorem count_bind_replicate_eq_zero (depsMap : String → List String)
    (names : List String) (d x : String) (hx : x ∉ names) :
    (names.flatMap (fun mod => List.replicate ((depsMap mod).count d) mod)).count x = 0 := by
  rw [List.count_eq_zero]
  intro hmem
  obtain ⟨mod, hmod, hrep⟩ := List.mem_flatMap.mp hmem
  exact hx ((List.eq_of_mem_replicate hrep) ▸ hmod)

theorem buildRev_count (depsMap : String → List String) (names : List String)
    (hnd : names.Nodup) (d x : String) (hx : x ∈ names) :
    (buildRev depsMap names d).count x = (depsMap x).count d := by
  rw [buildRev_apply]
  induction names with
  | nil => exact absurd hx (List.not_mem_nil x)
  | cons mod rest ih =>
      have hb : mod ∉ rest := (List.nodup_cons.mp hnd).1
      have hr : rest.Nodup := (List.nodup_cons.mp hnd).2
      rw [List.flatMap_cons, List.count_append]
      rcases List.mem_cons.mp hx with rfl | hxr
      · rw [List.count_replicate, count_bind_replicate_eq_zero depsMap rest d x hb]
        simp
      · have hxm : x ≠ mod := fun hxm => hb (hxm ▸ hxr)
        have hbx : (mod == x) = false := beq_eq_false_iff_ne.mpr (fun he => hxm he.symm)
        rw [List.count_replicate, ih hr hxr]
        simp [hbx]

theorem buildRev_eq_filter (depsMap : String → List String) (names : List String)
    (d : String) (h : ∀ mod, (depsMap mod).Nodup) :
    buildRev depsMap names d =
      names.filter (fun mod => (depsMap mod).contains d) := by
  rw [buildRev_apply]
  induction names with
  | nil => rfl
  | cons mod rest ih =>
      rw [List.flatMap_cons, List.filter_cons, ih]
      by_cases hd : d ∈ depsMap mod
      · have h1 : (depsMap mod).count d = 1 := by
          have hle := List.nodup_iff_count_le_one.mp (h mod) d
          have hge := List.count_pos_iff.mpr hd
          omega
        rw [h1]
        simp only [List.replicate_succ, List.replicate_zero, List.singleton_append,
          List.nil_append]
        simp [List.elem_eq_true_of_mem hd]
        rw [if_pos hd]
      · have h0 : (depsMap mod).count d = 0 := List.count_eq_zero.mpr hd
        have hcf : (depsMap mod).contains d = false := by
          simp [List.elem_iff, hd]
        rw [h0]
        simp [hcf]
        rw [if_neg hd]

theorem not_contains_iff (l : List String) (a : String) :
    (!(l.contains a)) = true ↔ a ∉ l := by
  simp [List.elem_iff]

theorem topoOk_append (fdeps : String → List String) (pre l : List String)
    (m : String) (h : topoOk fdeps pre l) (hm : ∀ d, d ∈ fdeps m → d ∈ pre ++ l) :
    topoOk fdeps pre (l ++ [m]) := by
  induction l generalizing pre with
  | nil =>
      refine ⟨?_, trivial⟩
      intro d hd
      simpa using hm d hd
  | cons a l ih =>
      obtain ⟨ha, hrest⟩ := h
      refine ⟨ha, ?_⟩
      refine ih (pre ++ [a]) hrest ?_
      intro d hd
      have := hm d hd
      rwa [List.append_cons] at this

theorem topoOk_extract (fdeps : String → List String) :
    ∀ (l1 pre : List String) (m : String) (l2 : List String),
      topoOk fdeps pre (l1 ++ m :: l2) → ∀ d, d ∈ fdeps m → d ∈ pre ++ l1 := by
  intro l1
  induction l1 with
  | nil =>
      intro pre m l2 h d hd
      simpa using h.1 d hd
  | cons a l1 ih =>
      intro pre m l2 h d hd
      have := ih (pre ++ [a]) m l2 h.2 d hd
      rwa [← List.append_cons] at this

theorem filter_append_singleton_length (l o : List String) (m : String)
    (hmo : m ∉ o) :
    (l.filter (fun e => !((o ++ [m]).contains e))).length + l.count m =
      (l.filter (fun e => !(o.contains e))).length := by
  induction l with
  | nil => simp
  | cons a l ih =>
      rw [List.filter_cons, List.filter_cons, List.count_cons]
      by_cases hao : a ∈ o
      · have ham : a ≠ m := fun h => hmo (h ▸ hao)
        have hbe : (a == m) = false := beq_eq_false_iff_ne.mpr ham
        have c1 : (!((o ++ [m]).contains a)) = false := by
          simp [List.elem_iff, List.mem_append, hao]
        have c2 : (!(o.contains a)) = false := by
          simp [List.elem_iff, hao]
        rw [c1, c2, hbe]
        simp only [Bool.false_eq_true, if_false]
        omega
      · by_cases ham : a = m
        · subst ham
          have hbe : (a == a) = true := beq_self_eq_true a
          have c1 : (!((o ++ [a]).contains a)) = false := by
            simp [List.elem_iff, List.mem_append]
          have c2 : (!(o.contains a)) = true := (not_contains_iff o a).mpr hao
          rw [c1, c2, hbe]
          simp only [Bool.false_eq_true, if_false, if_true, List.length_cons]
          omega
        · have hbe : (a == m) = false := beq_eq_false_iff_ne.mpr ham
          have c1 : (!((o ++ [m]).contains a)) = true := by
            refine (not_contains_iff _ a).mpr ?_
            intro hmem
            rcases List.mem_append.mp hmem with h | h
            · exact hao h
            · exact ham (List.mem_singleton.mp h)
          have c2 : (!(o.contains a)) = true := (not_contains_iff o a).mpr hao
          rw [c1, c2, hbe]
          simp only [Bool.false_eq_true, if_false, if_true, List.length_cons]
          omega

theorem count_le_filter_length (l : List String) (p : String → Bool) (m : String)
    (hp : p m = true) : l.count m ≤ (l.filter p).length := by
  induction l with
  | nil => simp
  | cons a l ih =>
      rw [List.count_cons, List.filter_cons]
      by_cases ham : a = m
      · subst ham
        rw [beq_self_eq_true a, hp]
        simp only [if_true, List.length_cons]
        omega
      · rw [beq_eq_false_iff_ne.mpr ham]
        simp only [Bool.false_eq_true, if_false]
        by_cases hpa : p a = true
        · rw [hpa]
          simp only [if_true, List.length_cons]
          omega
        · rw [Bool.not_eq_true] at hpa
          rw [hpa]
          simp only [Bool.false_eq_true, if_false]
          omega

/-- Main invariant proof for the Kahn queue loop: given a duplicate-free
candidate list and the reverse-edge/in-degree bookkeeping relations, the
loop (with enough fuel) returns an order that is duplicate-free, contained
in the candidates, respects the induced dependencies, extends the order so
far, and — when the induced graph is acyclic — covers every candidate. -/
theorem kahnLoop_spec (names : List String) (fdeps rev : String → List String)
    (hnd : names.Nodup)
    (hrevs : ∀ m x, x ∈ rev m → x ∈ names)
    (hrevc : ∀ x, x ∈ names → ∀ m, ((rev m).count x : Int) = ((fdeps x).count m : Int))
    (hfsub : ∀ x, x ∈ names → ∀ d, d ∈ fdeps x → d ∈ names) :
    ∀ (fuel : Nat) (queue : List String) (deg : String → Int) (order : List String),
      queue.length + degCount names deg < fuel →
      (∀ x, x ∈ order ++ queue → x ∈ names) →
      (order ++ queue).Nodup →
      (∀ x, x ∈ names → x ∉ order →
        deg x = (((fdeps x).filter (fun e => !(order.contains e))).length : Int)) →
      (∀ x, x ∈ names → x ∉ order → x ∉ queue → deg x ≠ 0) →
      (∀ x, x ∈ queue → deg x = 0) →
      (∀ x, x ∈ order → deg x ≤ 0) →
      topoOk fdeps [] order →
      (kahnLoop rev fuel queue deg order).Nodup ∧
      (∀ x, x ∈ kahnLoop rev fuel queue deg order → x ∈ names) ∧
      topoOk fdeps [] (kahnLoop rev fuel queue deg order) ∧
      (∀ x, x ∈ order → x ∈ kahnLoop rev fuel queue deg order) ∧
      (AcyclicOn fdeps names → ∀ x, x ∈ names → x ∈ kahnLoop rev fuel queue deg order) := by
  intro fuel
  induction fuel with
  | zero =>
      intro queue deg order hfuel _ _ _ _ _ _ _
      exact absurd hfuel (by omega)
  | succ fuel ih =>
      intro queue deg order hfuel hsub hnodup hdegEq hdegNe hqz hole htopo
      cases queue with
      | nil =>
          rw [kahnLoop]
          refine ⟨by simpa using hnodup, fun x hx => hsub x (by simpa using hx),
            htopo, fun x hx => hx, ?_⟩
          intro hacyc x hxn
          by_contra hxo
          have hRx : x ∈ names.filter (fun y => !(order.contains y)) :=
            List.mem_filter.mpr ⟨hxn, (not_contains_iff order x).mpr hxo⟩
          have hRne : names.filter (fun y => !(order.contains y)) ≠ [] := by
            intro hnil
            rw [hnil] at hRx
            exact List.not_mem_nil x hRx
          obtain ⟨z, hzR, hz⟩ :=
            hacyc (names.filter (fun y => !(order.contains y)))
              (fun y hy => (List.mem_filter.mp hy).1) hRne
          have hzn : z ∈ names := (List.mem_filter.mp hzR).1
          have hzo : z ∉ order :=
            (not_contains_iff order z).mp (List.mem_filter.mp hzR).2
          have hdz := hdegNe z hzn hzo (List.not_mem_nil z)
          have hdeq := hdegEq z hzn hzo
          have hfne : (fdeps z).filter (fun e => !(order.contains e)) ≠ [] := by
            intro hnil
            rw [hnil] at hdeq
            simp at hdeq
            exact hdz hdeq
          obtain ⟨d, hd⟩ := List.exists_mem_of_ne_nil _ hfne
          have hdf : d ∈ fdeps z := (List.mem_filter.mp hd).1
          have hdo : d ∉ order :=
            (not_contains_iff order d).mp (List.mem_filter.mp hd).2
          have hdn : d ∈ names := hfsub z hzn d hdf
          exact hz d hdf (List.mem_filter.mpr ⟨hdn, (not_contains_iff order d).mpr hdo⟩)
      | cons m qrest =>
          simp only [kahnLoop]
          rw [processRev_snd]
          obtain ⟨hoN, hmqN, hdisj⟩ := List.nodup_append.mp hnodup
          have hmn : m ∈ names := hsub m (List.mem_append_right _ (List.mem_cons_self m qrest))
          have hmo : m ∉ order := fun hmO => hdisj hmO (List.mem_cons_self m qrest)
          have hdm : deg m = 0 := hqz m (List.mem_cons_self m qrest)
          have hfme : (fdeps m).filter (fun e => !(order.contains e)) = [] := by
            have hq := hdegEq m hmn hmo
            rw [hdm] at hq
            have hlen : ((fdeps m).filter (fun e => !(order.contains e))).length = 0 := by
              exact_mod_cast hq.symm
            exact List.length_eq_zero.mp hlen
          have hdepsm : ∀ d, d ∈ fdeps m → d ∈ order := by
            intro d hd
            by_contra hdo
            have hmem : d ∈ (fdeps m).filter (fun e => !(order.contains e)) :=
              List.mem_filter.mpr ⟨hd, (not_contains_iff order d).mpr hdo⟩
            rw [hfme] at hmem
            exact List.not_mem_nil d hmem
          have hd2 : ∀ x, (processRev (rev m) deg qrest).1 x =
              deg x - ((rev m).count x : Int) := processRev_fst (rev m) deg qrest
          have hpushN : ∀ x, x ∈ pushedList (rev m) deg → x ∈ names :=
            fun x hx => hrevs m x ((pushedList_sublist (rev m) deg).subset hx)
          have hqrestO : ∀ x, x ∈ qrest → x ∉ order :=
            fun x hx hxo => hdisj hxo (List.mem_cons_of_mem _ hx)
          -- measure
          have hms := processRev_measure names hnd (rev m) (fun x hx => hrevs m x hx)
            deg qrest
          have hfuel2 : (qrest ++ pushedList (rev m) deg).length +
              degCount names ((processRev (rev m) deg qrest).1) < fuel := by
            rw [List.length_append]
            have : (m :: qrest).length = qrest.length + 1 := by simp
            omega
          -- subset
          have hsub2 : ∀ x, x ∈ (order ++ [m]) ++ (qrest ++ pushedList (rev m) deg) →
              x ∈ names := by
            intro x hx
            rcases List.mem_append.mp hx with hx | hx
            · rcases List.mem_append.mp hx with hx | hx
              · exact hsub x (List.mem_append_left _ hx)
              · rw [List.mem_singleton.mp hx]; exact hmn
            · rcases List.mem_append.mp hx with hx | hx
              · exact hsub x (List.mem_append_right _ (List.mem_cons_of_mem _ hx))
              · exact hpushN x hx
          -- nodup
          have hre : (order ++ [m]) ++ (qrest ++ pushedList (rev m) deg) =
              (order ++ m :: qrest) ++ pushedList (rev m) deg := by
            simp [List.append_assoc]
          have hnodup2 : ((order ++ [m]) ++ (qrest ++ pushedList (rev m) deg)).Nodup := by
            rw [hre]
            refine List.nodup_append.mpr ⟨hnodup, pushedList_nodup _ _, ?_⟩
            intro a ha hap
            have h1le := ((mem_pushedList (rev m) deg a).mp hap).1
            rcases List.mem_append.mp ha with ha | ha
            · have := hole a ha
              omega
            · rcases List.mem_cons.mp ha with rfl | ha
              · omega
              · have := hqz a (List.mem_cons_of_mem _ ha)
                omega
          -- in-degree equation
          have hdegEq2 : ∀ x, x ∈ names → x ∉ order ++ [m] →
              (processRev (rev m) deg qrest).1 x =
                (((fdeps x).filter (fun e => !((order ++ [m]).contains e))).length : Int) := by
            intro x hxn hxo2
            have hxo : x ∉ order := fun h => hxo2 (List.mem_append_left _ h)
            have hFL := filter_append_singleton_length (fdeps x) order m hmo
            rw [hd2 x, hdegEq x hxn hxo, hrevc x hxn m]
            omega
          -- nonzero off queue
          have hdegNe2 : ∀ x, x ∈ names → x ∉ order ++ [m] →
              x ∉ qrest ++ pushedList (rev m) deg →
              (processRev (rev m) deg qrest).1 x ≠ 0 := by
            intro x hxn hxo2 hxq2 hcontra
            have hxo : x ∉ order := fun h => hxo2 (List.mem_append_left _ h)
            have hxm : x ≠ m := fun h => hxo2 (List.mem_append_right _ (by simp [h]))
            have hxq : x ∉ qrest := fun h => hxq2 (List.mem_append_left _ h)
            have hxp : x ∉ pushedList (rev m) deg :=
              fun h => hxq2 (List.mem_append_right _ h)
            have heq := hdegEq x hxn hxo
            by_cases hz : deg x = 0
            · exact hdegNe x hxn hxo
                (fun hmem => (List.mem_cons.mp hmem).elim hxm hxq) hz
            · have h1 : 1 ≤ deg x := by
                have : (0:Int) ≤ (((fdeps x).filter (fun e => !(order.contains e))).length : Int) := by
                  positivity
                omega
              rw [hd2 x] at hcontra
              exact hxp ((mem_pushedList (rev m) deg x).mpr ⟨h1, by omega⟩)
          -- queue members at zero
          have hqz2 : ∀ x, x ∈ qrest ++ pushedList (rev m) deg →
              (processRev (rev m) deg qrest).1 x = 0 := by
            intro x hx
            rcases List.mem_append.mp hx with hxq | hxp
            · have hxn := hsub x (List.mem_append_right _ (List.mem_cons_of_mem _ hxq))
              have hxo := hqrestO x hxq
              have hdx := hqz x (List.mem_cons_of_mem _ hxq)
              have heq := hdegEq x hxn hxo
              rw [hdx] at heq
              have hfe : (fdeps x).filter (fun e => !(order.contains e)) = [] := by
                have hlen : ((fdeps x).filter (fun e => !(order.contains e))).length = 0 := by
                  exact_mod_cast heq.symm
                exact List.length_eq_zero.mp hlen
              have hmf : m ∉ fdeps x := by
                intro hmem
                have : m ∈ (fdeps x).filter (fun e => !(order.contains e)) :=
                  List.mem_filter.mpr ⟨hmem, (not_contains_iff order m).mpr hmo⟩
                rw [hfe] at this
                exact List.not_mem_nil m this
              have hcz : ((fdeps x).count m : Int) = 0 := by
                rw [List.count_eq_zero.mpr hmf]
                rfl
              rw [hd2 x, hdx, hrevc x hxn m, hcz]
              ring
            · obtain ⟨h1, h2⟩ := (mem_pushedList (rev m) deg x).mp hxp
              have hxn := hpushN x hxp
              have hxo : x ∉ order := by
                intro hxO
                have := hole x hxO
                omega
              have heq := hdegEq x hxn hxo
              have hcle : (fdeps x).count m ≤
                  ((fdeps x).filter (fun e => !(order.contains e))).length :=
                count_le_filter_length (fdeps x) _ m ((not_contains_iff order m).mpr hmo)
              have hcx := hrevc x hxn m
              rw [hd2 x]
              omega
          -- processed names at nonpositive degree
          have hole2 : ∀ x, x ∈ order ++ [m] → (processRev (rev m) deg qrest).1 x ≤ 0 := by
            intro x hx
            rw [hd2 x]
            have hcnn : (0:Int) ≤ ((rev m).count x : Int) := by positivity
            rcases List.mem_append.mp hx with hx | hx
            · have := hole x hx
              omega
            · rw [List.mem_singleton.mp hx]
              omega
          -- topological invariant
          have htopo2 : topoOk fdeps [] (order ++ [m]) := by
            refine topoOk_append fdeps [] order m htopo ?_
            intro d hd
            simpa using hdepsm d hd
          obtain ⟨c1, c2, c3, c4, c5⟩ := ih (qrest ++ pushedList (rev m) deg)
            ((processRev (rev m) deg qrest).1) (order ++ [m]) hfuel2 hsub2 hnodup2
            hdegEq2 hdegNe2 hqz2 hole2 htopo2
          exact ⟨c1, c2, c3, fun x hx => c4 x (List.mem_append_left _ hx), c5⟩

/-- `kahnOrder` specification for a duplicate-free candidate list: the
produced order is duplicate-free, drawn from the candidates, respects the
induced dependencies, and covers all candidates when the induced graph is
acyclic. -/
theorem kahnOrder_spec (getDeps : String → List String) (names : List String)
    (hnd : names.Nodup) :
    (kahnOrder getDeps names).Nodup ∧
    (∀ x, x ∈ kahnOrder getDeps names → x ∈ names) ∧
    topoOk (candidateDeps getDeps names) [] (kahnOrder getDeps names) ∧
    (AcyclicOn (candidateDeps getDeps names) names →
      ∀ x, x ∈ names → x ∈ kahnOrder getDeps names) := by
  have hfsub : ∀ x, x ∈ names → ∀ d, d ∈ candidateDeps getDeps names x → d ∈ names := by
    intro x _ d hd
    have := (List.mem_filter.mp hd).2
    rwa [List.elem_iff] at this
  have hrevs : ∀ m x, x ∈ buildRev (candidateDeps getDeps names) names m → x ∈ names :=
    fun m x hx => buildRev_mem_names _ names m x hx
  have hrevc : ∀ x, x ∈ names → ∀ m,
      (((buildRev (candidateDeps getDeps names) names m).count x : Int)) =
        (((candidateDeps getDeps names x).count m : Int)) := by
    intro x hx m
    rw [buildRev_count _ names hnd m x hx]
  have hdeg0 : ∀ x, x ∈ names →
      initDeg (candidateDeps getDeps names) names x =
        ((candidateDeps getDeps names x).length : Int) := by
    intro x hx
    rw [initDeg_apply, List.count_eq_one_of_mem hnd hx]
    ring
  have hspec := kahnLoop_spec names (candidateDeps getDeps names)
    (buildRev (candidateDeps getDeps names) names) hnd hrevs hrevc hfsub
    (2 * names.length + 1)
    (names.filter (fun m => initDeg (candidateDeps getDeps names) names m == 0))
    (initDeg (candidateDeps getDeps names) names) []
    (by
      have h1 : (names.filter
          (fun m => initDeg (candidateDeps getDeps names) names m == 0)).length ≤
            names.length := List.length_filter_le _ names
      have h2 : degCount names (initDeg (candidateDeps getDeps names) names) ≤
          names.length := List.countP_le_length _
      omega)
    (by
      intro x hx
      rw [List.nil_append] at hx
      exact (List.mem_filter.mp hx).1)
    (by
      rw [List.nil_append]
      exact List.Nodup.filter _ hnd)
    (by
      intro x hx _
      rw [hdeg0 x hx]
      congr 1
      have : (fun e => !(([] : List String).contains e)) = fun e => true := by
        funext e
        rfl
      rw [this, List.filter_true])
    (by
      intro x hx _ hxq
      intro hz
      refine hxq (List.mem_filter.mpr ⟨hx, ?_⟩)
      rw [hz]
      rfl)
    (by
      intro x hx
      have := (List.mem_filter.mp hx).2
      exact (beq_iff_eq.mp this))
    (by
      intro x hx
      exact absurd hx (List.not_mem_nil x))
    trivial
  rw [kahnOrder]
  exact ⟨hspec.1, hspec.2.1, hspec.2.2.1, fun h => hspec.2.2.2.2 h⟩

/-- C10.  For a duplicate-free candidate list, the resolver's output is a
permutation of the candidates (each candidate appears exactly once and
nothing else appears), in the topological branch, in the lexicographic
fallback branch, and trivially on the empty list. -/
theorem resolve_load_order_perm (getDeps : String → List String)
    (names : List String) (hnd : names.Nodup) :
    (resolve_event_modifiers_load_order getDeps names).Perm names := by
  by_cases hne : names = []
  · subst hne
    rw [resolve_event_modifiers_load_order, if_pos rfl]
  · obtain ⟨hno, hsub, -, -⟩ := kahnOrder_spec getDeps names hnd
    simp only [resolve_event_modifiers_load_order, if_neg hne]
    by_cases hlen : (kahnOrder getDeps names).length ≠ names.length
    · rw [if_pos hlen, sortedLex]
      exact List.perm_insertionSort _ names
    · rw [if_neg hlen]
      push_neg at hlen
      have hsp : (kahnOrder getDeps names).Subperm names :=
        List.Nodup.subperm hno (fun x hx => hsub x hx)
      exact hsp.perm_of_length_le (le_of_eq hlen.symm)

theorem resolve_load_order_perm_witness :
    (["b", "a"] : List String).Nodup ∧
    (resolve_event_modifiers_load_order (fun _ => []) ["b", "a"]).Perm ["b", "a"] :=
  ⟨by decide, resolve_load_order_perm (fun _ => []) ["b", "a"] (by decide)⟩

/-- C1.  For a duplicate-free candidate list whose induced dependency
subgraph is acyclic, the resolver returns an order in which every
in-candidate dependency of a mod appears strictly before that mod;
dependencies outside the candidate list are filtered away and impose no
constraint. -/
theorem resolve_topological_order (getDeps : String → List String)
    (names l1 l2 : List String) (m d : String)
    (hnd : names.Nodup)
    (hacyc : AcyclicOn (candidateDeps getDeps names) names)
    (hsplit : resolve_event_modifiers_load_order getDeps names = l1 ++ m :: l2)
    (hd : d ∈ getDeps m) (hdn : d ∈ names) :
    d ∈ l1 := by
  by_cases hne : names = []
  · subst hne
    rw [resolve_event_modifiers_load_order, if_pos rfl] at hsplit
    exact absurd hsplit.symm (List.append_ne_nil_of_right_ne_nil l1 (by simp))
  · obtain ⟨hno, hsub, htop, hcov⟩ := kahnOrder_spec getDeps names hnd
    have hcov2 := hcov hacyc
    have hlen : (kahnOrder getDeps names).length = names.length := by
      have hsp : (kahnOrder getDeps names).Subperm names :=
        List.Nodup.subperm hno (fun x hx => hsub x hx)
      have hsp2 : names.Subperm (kahnOrder getDeps names) :=
        List.Nodup.subperm hnd (fun x hx => hcov2 x hx)
      have h1 := hsp.length_le
      have h2 := hsp2.length_le
      omega
    have hres : resolve_event_modifiers_load_order getDeps names =
        kahnOrder getDeps names := by
      simp only [resolve_event_modifiers_load_order, if_neg hne]
      rw [if_neg (fun hcon => hcon hlen)]
    rw [hres] at hsplit
    have hdf : d ∈ candidateDeps getDeps names m :=
      List.mem_filter.mpr ⟨hd, List.elem_eq_true_of_mem hdn⟩
    have hext := topoOk_extract (candidateDeps getDeps names) l1 [] m l2
      (hsplit ▸ htop) d hdf
    simpa using hext

theorem wDepsMD_acyclic : AcyclicOn (candidateDeps wDepsMD ["M", "D"]) ["M", "D"] := by
  intro S hsub hne
  by_cases hD : "D" ∈ S
  · refine ⟨"D", hD, ?_⟩
    intro d hd
    have hcd : candidateDeps wDepsMD ["M", "D"] "D" = [] := by decide
    rw [hcd] at hd
    exact absurd hd (List.not_mem_nil d)
  · have hM : "M" ∈ S := by
      cases S with
      | nil => exact absurd rfl hne
      | cons a S2 =>
          have ha := hsub (List.mem_cons_self a S2)
          rcases List.mem_cons.mp ha with rfl | ha2
          · exact List.mem_cons_self _ _
          · rw [List.mem_singleton.mp ha2] at hD ⊢
            exact absurd (List.mem_cons_self _ _) hD
    refine ⟨"M", hM, ?_⟩
    intro d hd
    have hcm : candidateDeps wDepsMD ["M", "D"] "M" = ["D"] := by decide
    rw [hcm] at hd
    rw [List.mem_singleton.mp hd]
    exact hD

theorem resolve_topological_order_witness :
    (["M", "D"] : List String).Nodup ∧
    AcyclicOn (candidateDeps wDepsMD ["M", "D"]) ["M", "D"] ∧
    resolve_event_modifiers_load_order wDepsMD ["M", "D"] = ["D"] ++ "M" :: [] ∧
    "D" ∈ wDepsMD "M" ∧ "D" ∈ (["M", "D"] : List String) ∧
    "D" ∈ (["D"] : List String) :=
  ⟨by decide, wDepsMD_acyclic, by decide, by decide, by decide,
    resolve_topological_order wDepsMD ["M", "D"] ["D"] [] "M" "D" (by decide)
      wDepsMD_acyclic (by decide) (by decide) (by decide)⟩

/-- C4.  Whenever the Kahn sort covers fewer names than the candidate list
(a cycle among candidates), the resolver raises no error and returns the
candidates sorted in ascending lexicographic (code-point) order: the result
is exactly `sorted(mod_names)`, is sorted, and is a permutation of the
candidates. -/
theorem resolve_cycle_fallback (getDeps : String → List String)
    (names : List String) (hne : names ≠ [])
    (hshort : (kahnOrder getDeps names).length ≠ names.length) :
    resolve_event_modifiers_load_order getDeps names = sortedLex names ∧
    (resolve_event_modifiers_load_order getDeps names).Sorted
      (fun a b : String => a.data ≤ b.data) ∧
    (resolve_event_modifiers_load_order getDeps names).Perm names := by
  have hres : resolve_event_modifiers_load_order getDeps names = sortedLex names := by
    simp only [resolve_event_modifiers_load_order, if_neg hne]
    rw [if_pos hshort]
  refine ⟨hres, ?_, ?_⟩
  · rw [hres, sortedLex]
    exact List.sorted_insertionSort _ names
  · rw [hres, sortedLex]
    exact List.perm_insertionSort _ names

theorem resolve_cycle_fallback_witness :
    ((["X", "Y"] : List String) ≠ []) ∧
    ((kahnOrder wDepsXY ["X", "Y"]).length ≠ (["X", "Y"] : List String).length) ∧
    (resolve_event_modifiers_load_order wDepsXY ["X", "Y"] = sortedLex ["X", "Y"] ∧
      (resolve_event_modifiers_load_order wDepsXY ["X", "Y"]).Sorted
        (fun a b : String => a.data ≤ b.data) ∧
      (resolve_event_modifiers_load_order wDepsXY ["X", "Y"]).Perm ["X", "Y"]) ∧
    resolve_event_modifiers_load_order wDepsXY ["X", "Y"] = ["X", "Y"] :=
  ⟨by decide, by decide,
    resolve_cycle_fallback wDepsXY ["X", "Y"] (by decide) (by decide), by decide⟩

theorem cexDepsYX_acyclic :
    AcyclicOn (candidateDeps cexDepsYX ["X", "Y", "Z"]) ["X", "Y", "Z"] := by
  intro S hsub hne
  by_cases hX : "X" ∈ S
  · refine ⟨"X", hX, ?_⟩
    intro d hd
    have hc : candidateDeps cexDepsYX ["X", "Y", "Z"] "X" = [] := by decide
    rw [hc] at hd
    exact absurd hd (List.not_mem_nil d)
  · by_cases hZ : "Z" ∈ S
    · refine ⟨"Z", hZ, ?_⟩
      intro d hd
      have hc : candidateDeps cexDepsYX ["X", "Y", "Z"] "Z" = [] := by decide
      rw [hc] at hd
      exact absurd hd (List.not_mem_nil d)
    · have hY : "Y" ∈ S := by
        cases S with
        | nil => exact absurd rfl hne
        | cons a S2 =>
            have ha := hsub (List.mem_cons_self a S2)
            rcases List.mem_cons.mp ha with rfl | ha2
            · exact absurd (List.mem_cons_self _ _) hX
            · rcases List.mem_cons.mp ha2 with rfl | ha3
              · exact List.mem_cons_self _ _
              · rw [List.mem_singleton.mp ha3] at hZ ⊢
                exact absurd (List.mem_cons_self _ _) hZ
      refine ⟨"Y", hY, ?_⟩
      intro d hd
      have hc : candidateDeps cexDepsYX ["X", "Y", "Z"] "Y" = ["X"] := by decide
      rw [hc] at hd
      rw [List.mem_singleton.mp hd]
      exact hX

/-- C5 counterexample.  On the acyclic input with candidates `X, Y, Z` and
`Y` depending on `X`: after `X` is popped, `Y` and `Z` simultaneously have
in-degree zero, and `Y` precedes `Z` in the candidate list, yet the FIFO
queue processes `Z` first.  The resolver's order therefore differs from the
order determined by candidate-set appearance as tie-break at every
selection point (`claimTieBreakOrder`). -/
theorem resolve_tiebreak_cex :
    AcyclicOn (candidateDeps cexDepsYX ["X", "Y", "Z"]) ["X", "Y", "Z"] ∧
    claimTieBreakOrder cexDepsYX ["X", "Y", "Z"] = ["X", "Y", "Z"] ∧
    resolve_event_modifiers_load_order cexDepsYX ["X", "Y", "Z"] = ["X", "Z", "Y"] ∧
    resolve_event_modifiers_load_order cexDepsYX ["X", "Y", "Z"] ≠
      claimTieBreakOrder cexDepsYX ["X", "Y", "Z"] :=
  ⟨cexDepsYX_acyclic, by decide, by decide, by decide⟩

/-- C5 (amended).  Names are enqueued in candidate-set appearance order each
time a group becomes ready together: the initial queue is a sublist of the
candidate list, the reverse-edge list of any name is the candidate list
filtered to its dependents (so in candidate order, given duplicate-free
dependency lists), and the names pushed while processing one pop form a
sublist of that reverse-edge list, hence of the candidate list.  The queue
is FIFO, so the resolved order is deterministic, but nodes that become
ready at different times are processed in ready-time order, not
candidate-set order. -/
theorem resolve_stable_enqueue (getDeps : String → List String)
    (names : List String) (d : String) (deg : String → Int)
    (hdnd : ∀ x, (getDeps x).Nodup) :
    buildRev (candidateDeps getDeps names) names d =
      names.filter (fun mod => (candidateDeps getDeps names mod).contains d) ∧
    (names.filter (fun m => deg m == 0)).Sublist names ∧
    (pushedList (buildRev (candidateDeps getDeps names) names d) deg).Sublist names := by
  have hn : ∀ mod, (candidateDeps getDeps names mod).Nodup :=
    fun mod => List.Nodup.filter _ (hdnd mod)
  have h1 := buildRev_eq_filter (candidateDeps getDeps names) names d hn
  refine ⟨h1, List.filter_sublist _, ?_⟩
  rw [h1]
  exact (pushedList_sublist _ deg).trans (List.filter_sublist _)

theorem resolve_stable_enqueue_witness :
    (∀ x : String, (((fun _ => []) : String → List String) x).Nodup) ∧
    (buildRev (candidateDeps (fun _ => []) ["a", "b"]) ["a", "b"] "a" =
        (["a", "b"] : List String).filter
          (fun mod => (candidateDeps (fun _ => []) ["a", "b"] mod).contains "a") ∧
      ((["a", "b"] : List String).filter
        (fun m => (fun _ => (0 : Int)) m == 0)).Sublist ["a", "b"] ∧
      (pushedList (buildRev (candidateDeps (fun _ => []) ["a", "b"]) ["a", "b"] "a")
        (fun _ => (0 : Int))).Sublist ["a", "b"]) :=
  ⟨fun _ => List.nodup_nil,
    resolve_stable_enqueue (fun _ => []) ["a", "b"] "a" (fun _ => (0 : Int))
      (fun _ => List.nodup_nil)⟩

theorem parse_brace_multiline_witness :
    ((pyStrip "# note").data.isEmpty = true ∨
      startsWithB (pyStrip "# note") "#" = true ∨
      hasChar (pyStrip "# note") '=' = false) ∧
    (parse_event_modifiers_content "foo=\x7b\na=1\n\x7d\nbar=2" =
        [("foo", "\x7b\na=1\n\x7d"), ("bar", "2")] ∧
      parseLines ["# note", "a=1"] = parseLines ["a=1"]) :=
  ⟨by decide, parse_brace_multiline "# note" ["a=1"] (by decide)⟩

theorem parse_truncated_brace_block_witness :
    (((pyStrip "k=\x7b").data.isEmpty || startsWithB (pyStrip "k=\x7b") "#") = false) ∧
    (hasChar (pyStrip "k=\x7b") '=' = true) ∧
    (hasChar (pyStrip (splitOnce '=' (pyStrip "k=\x7b")).2) '\x7b' = true) ∧
    (runningPosB (braceDelta (pyStrip (splitOnce '=' (pyStrip "k=\x7b")).2))
      ["a=1"] = true) ∧
    parseLines ["k=\x7b", "a=1"] =
      [(pyStrip (splitOnce '=' (pyStrip "k=\x7b")).1,
        pyStrip ((["a=1"] : List String).foldl (fun acc l => acc ++ "\n" ++ l)
          (pyStrip (splitOnce '=' (pyStrip "k=\x7b")).2)))] :=
  ⟨by decide, by decide, by decide, by decide,
    parse_truncated_brace_block "k=\x7b" ["a=1"] (by decide) (by decide)
      (by decide) (by decide)⟩
